import Mathlib

/-!
Shallow embedding of `velox/common/process/TraceContext.cpp`.

The per-thread state is a map from label to `TraceData`
(`folly::F14FastMap<std::string, TraceData>` in the source); we model it as
an association list with unique keys (`keysNodup`).  Timestamps are natural
numbers measured in milliseconds; `std::chrono::steady_clock` is monotone, so
durations are non-negative and `Nat` subtraction is faithful.  `numThreads`
and `numEnters` are `int32_t` in the source and are modelled as `Int`;
`totalMs` and `maxMs` are `uint64_t`, modelled as `Nat`.

`TraceContext::TraceContext` / `TraceContext::~TraceContext` act on the
calling thread's own map; `traceConstruct` and `traceDestruct` embed the two
lambdas passed to `threadLocalTraceData.withValue`.  The call to
`TraceHistory::push` in the constructor only appends to an external ring
buffer and never touches the per-thread map, so it has no effect on the
state modelled here.  `status` folds every live per-thread map into one
result map; `statusLine` renders the report.
-/

namespace TraceCtx

/-- Per-thread, per-label counters (struct `TraceData` in
`TraceContext.h`; field list and zero defaults as used by the source). -/
structure TraceData where
  startTime : Nat := 0
  numThreads : Int := 0
  numEnters : Int := 0
  totalMs : Nat := 0
  maxMs : Nat := 0
deriving Repr, DecidableEq

/-- A per-thread label map (`folly::F14FastMap<std::string, TraceData>`). -/
def TMap := List (String × TraceData)

instance : DecidableEq TMap := by unfold TMap; infer_instance

instance : Membership (String × TraceData) TMap := by unfold TMap; infer_instance

/-- Hash-map lookup (`counts.find(label)`). -/
def lookupTD : TMap → String → Option TraceData
  | [], _ => none
  | (k, d) :: rest, l => if k = l then some d else lookupTD rest l

/-- Hash-map store: replace the value at an existing key, or append a new
entry (the write-back of `counts[label]` / `total[k]`). -/
def setEntry : TMap → String → TraceData → TMap
  | [], l, d => [(l, d)]
  | (k, e) :: rest, l, d =>
      if k = l then (l, d) :: rest else (k, e) :: setEntry rest l d

/-- Hash-map erase (`counts.erase(it)`). -/
def eraseEntry : TMap → String → TMap
  | [], _ => []
  | (k, e) :: rest, l => if k = l then rest else (k, e) :: eraseEntry rest l

/-- Keys of the association list are distinct — the invariant every real
hash map maintains. -/
def keysNodup (m : TMap) : Prop := (List.map Prod.fst m).Nodup

instance (m : TMap) : Decidable (keysNodup m) := by
  unfold keysNodup; infer_instance

/-- The entry for a label, defaulted to the zero `TraceData` the way
`operator[]` default-constructs a missing mapped value. -/
def entryOf (m : TMap) (l : String) : TraceData := (lookupTD m l).getD {}

/-- `TraceContext::TraceContext(label, isTemporary)`, the lambda run by
`withValue` on the calling thread's map: fetch-or-create the entry,
`++numThreads`, on `numThreads == 1` set `startTime = enterTime_`, then
`++numEnters`.  `isTemporary` is only stored in the context object, so it
does not appear here. -/
def traceConstruct (label : String) (enterTime : Nat) (m : TMap) : TMap :=
  let d := entryOf m label
  let n := d.numThreads + 1
  setEntry m label
    { d with
      numThreads := n
      startTime := if n = 1 then enterTime else d.startTime
      numEnters := d.numEnters + 1 }

/-- `TraceContext::~TraceContext()`, the lambda run by `withValue`:
`--numThreads`; if it reached 0 and the context is temporary, erase the
entry and return; otherwise accumulate the elapsed milliseconds into
`totalMs` and `maxMs`.  The source dereferences `counts.find(label_)`
unconditionally (the entry must exist, since the constructor created it);
a missing entry is modelled as a no-op. -/
def traceDestruct (label : String) (enterTime now : Nat) (isTemporary : Bool)
    (m : TMap) : TMap :=
  match lookupTD m label with
  | none => m
  | some d =>
      let n := d.numThreads - 1
      if n = 0 ∧ isTemporary = true then
        eraseEntry m label
      else
        let ms := now - enterTime
        setEntry m label
          { d with numThreads := n, totalMs := d.totalMs + ms
                   maxMs := max d.maxMs ms }

/-- One merge step of `TraceContext::status()`: fold one incoming per-thread
entry `v` into the accumulated entry `sofar` (the `startTime` rule reads
`sofar.numEnters` before it is incremented, matching statement order in the
source). -/
def mergeEntry (sofar v : TraceData) : TraceData :=
  { startTime :=
      if sofar.numEnters = 0 then v.startTime
      else if 0 < v.numEnters then min sofar.startTime v.startTime
      else sofar.startTime
    numThreads := sofar.numThreads + v.numThreads
    numEnters := sofar.numEnters + v.numEnters
    totalMs := sofar.totalMs + v.totalMs
    maxMs := max sofar.maxMs v.maxMs }

/-- Body of the inner loop of `status()`: `auto& sofar = total[k];` then the
merge of `v` into `sofar`. -/
def statusStep (total : TMap) (kv : String × TraceData) : TMap :=
  setEntry total kv.1 (mergeEntry (entryOf total kv.1) kv.2)

/-- `TraceContext::status()`: fold every live per-thread map (the list over
which `registry->forAllValues` iterates) into one fresh map. -/
def status (ts : List TMap) : TMap :=
  ts.foldl (fun total m => m.foldl statusStep total) []

/-- `TraceContext::statusLine()`: one output line per label whose aggregated
`numThreads` is truthy (non-zero), in the source's exact `<<` order;
`now` is the single `steady_clock::now()` taken before the loop.  The
division converts `numEnters` to `uint64_t` (`Int.toNat`), as C++ usual
arithmetic conversions do. -/
def statusLine (now : Nat) (ts : List TMap) : String :=
  (status ts).foldl
    (fun out p =>
      if p.2.numThreads ≠ 0 then
        out ++ p.1 ++ "=" ++ toString p.2.numThreads ++ " entered "
            ++ toString p.2.numEnters ++ " avg ms "
            ++ toString (p.2.totalMs / p.2.numEnters.toNat) ++ " max ms "
            ++ toString p.2.maxMs ++ " continuous for "
            ++ toString (now - p.2.startTime) ++ "\n"
      else out)
    ""

/-- The per-thread entries for a label, in registry order: what each live
per-thread map contributes to the merge for that label (at most one entry
per map). -/
def entriesFor (ts : List TMap) (l : String) : List TraceData :=
  ts.filterMap (fun m => lookupTD m l)

/-- Merging a list of per-thread entries into one result entry, starting
from the zero `TraceData` that `total[k]` default-constructs. -/
def mergeAll (ds : List TraceData) : TraceData := ds.foldl mergeEntry {}

/-- The `startTime`s of the entries whose `numEnters` is positive. -/
def posStarts (ds : List TraceData) : List Nat :=
  ds.filterMap (fun d => if 0 < d.numEnters then some d.startTime else none)

/-- Minimum of a list of naturals (0 on the empty list). -/
def minL : List Nat → Nat
  | [] => 0
  | x :: xs => xs.foldl min x

/-- Per-thread well-formedness, as maintained by the constructor/destructor
pair: every entry has `0 ≤ numThreads` and `numThreads ≤ numEnters`. -/
def wfMap (m : TMap) : Prop :=
  ∀ p ∈ m, 0 ≤ (p : String × TraceData).2.numThreads ∧
    p.2.numThreads ≤ p.2.numEnters

instance (m : TMap) : Decidable (wfMap m) := by
  unfold wfMap TMap at *; infer_instance

/-- Modelled from the spec: `statusLine()` as §4.3/§6 describe it — one
line per label of the snapshot with `numThreads > 0`, each rendered as
`"<label>=<numThreads> entered <numEnters> avg ms <avg> max ms <maxMs>
continuous for <elapsedMs>"` with `avg = totalMs / numEnters`, joined into
one multi-line string. -/
def statusLineSpec (now : Nat) (ts : List TMap) : String :=
  String.join
    (((status ts).filter (fun p => decide (0 < p.2.numThreads))).map
      (fun p =>
        p.1 ++ "=" ++ toString p.2.numThreads ++ " entered "
          ++ toString p.2.numEnters ++ " avg ms "
          ++ toString (p.2.totalMs / p.2.numEnters.toNat) ++ " max ms "
          ++ toString p.2.maxMs ++ " continuous for "
          ++ toString (now - p.2.startTime) ++ "\n"))

/-! ### Single-thread event system

A `TraceContext` instance is stack-scoped: it stores `label_`, `enterTime_`
and `isTemporary_`, and its destructor runs on the same thread in LIFO
order.  A thread's history is a list of events: `enter` constructs a
context (at the given current time), `exit` destructs the most recently
constructed live one. -/

/-- The fields a live `TraceContext` object carries. -/
structure Ctx where
  label : String
  enterTime : Nat
  isTemporary : Bool
deriving Repr, DecidableEq

/-- One scope event on a thread. -/
inductive Event where
  | enter : String → Bool → Nat → Event
  | exit : Nat → Event
deriving Repr, DecidableEq

/-- A thread's instrumentation state: the stack of live contexts and the
thread's private label map. -/
structure ThreadState where
  stack : List Ctx
  counts : TMap

/-- Initial thread state: no live contexts, empty map. -/
def initState : ThreadState := ⟨[], []⟩

/-- Apply one event: `enter l temp t` runs `TraceContext::TraceContext`,
`exit t` runs `TraceContext::~TraceContext` on the innermost live context
(a no-op if none is live — scoping makes that case unreachable). -/
def step (s : ThreadState) : Event → ThreadState
  | .enter l temp t => ⟨⟨l, t, temp⟩ :: s.stack, traceConstruct l t s.counts⟩
  | .exit t =>
      match s.stack with
      | [] => s
      | c :: rest =>
          ⟨rest, traceDestruct c.label c.enterTime t c.isTemporary s.counts⟩

/-- Run a sequence of events from the initial state. -/
def run (evs : List Event) : ThreadState := evs.foldl step initState

/-- Number of live activations of a label on the stack. -/
def stackCount (stack : List Ctx) (l : String) : Int :=
  ((stack.filter (fun c => decide (c.label = l))).length : Int)

/-- Inductive invariant tying a thread's stack of live contexts to its
private map: keys are unique, every label's `numThreads` equals its number
of live activations, and no entry has more active entries than lifetime
enters. -/
def invHolds (s : ThreadState) : Prop :=
  keysNodup s.counts ∧
  (∀ l, (entryOf s.counts l).numThreads = stackCount s.stack l) ∧
  (∀ p ∈ s.counts,
    (p : String × TraceData).2.numThreads ≤ p.2.numEnters)

/-! ### Association-list lemmas -/

theorem lookupTD_setEntry_self (m : TMap) (l : String) (d : TraceData) :
    lookupTD (setEntry m l d) l = some d := by
  induction m with
  | nil => simp [setEntry, lookupTD]
  | cons p rest ih =>
      obtain ⟨k, e⟩ := p
      by_cases h : k = l <;> simp [setEntry, lookupTD, h, ih]

theorem lookupTD_setEntry_ne (m : TMap) (l k : String) (d : TraceData)
    (h : k ≠ l) : lookupTD (setEntry m l d) k = lookupTD m k := by
  induction m with
  | nil => simp [setEntry, lookupTD, Ne.symm h]
  | cons p rest ih =>
      obtain ⟨k', e⟩ := p
      by_cases h' : k' = l
      · subst h'
        simp [setEntry, lookupTD, Ne.symm h]
      · simp [setEntry, lookupTD, h', ih]

theorem lookupTD_eraseEntry_ne (m : TMap) (l k : String) (h : k ≠ l) :
    lookupTD (eraseEntry m l) k = lookupTD m k := by
  induction m with
  | nil => simp [eraseEntry]
  | cons p rest ih =>
      obtain ⟨k', e⟩ := p
      by_cases h' : k' = l
      · subst h'
        simp [eraseEntry, lookupTD, Ne.symm h]
      · simp [eraseEntry, lookupTD, h', ih]

theorem lookupTD_eq_none_of_notMemKeys (m : TMap) (l : String)
    (h : l ∉ List.map Prod.fst m) : lookupTD m l = none := by
  induction m with
  | nil => rfl
  | cons p rest ih =>
      obtain ⟨k, e⟩ := p
      simp only [List.map_cons, List.mem_cons] at h
      push_neg at h
      simp [lookupTD, Ne.symm h.1, ih h.2]

theorem lookupTD_eraseEntry_self (m : TMap) (l : String) (hm : keysNodup m) :
    lookupTD (eraseEntry m l) l = none := by
  induction m with
  | nil => rfl
  | cons p rest ih =>
      obtain ⟨k, e⟩ := p
      obtain ⟨hk, hrest⟩ := List.nodup_cons.mp hm
      by_cases h : k = l
      · subst h
        simpa [eraseEntry] using lookupTD_eq_none_of_notMemKeys rest k hk
      · simp [eraseEntry, lookupTD, h, ih hrest]

theorem memKeys_setEntry (m : TMap) (l a : String) (d : TraceData)
    (h : a ∈ List.map Prod.fst (setEntry m l d)) :
    a = l ∨ a ∈ List.map Prod.fst m := by
  induction m with
  | nil => simpa [setEntry] using h
  | cons p rest ih =>
      obtain ⟨k, e⟩ := p
      by_cases h' : k = l
      · subst h'
        simpa [setEntry] using h
      · simp only [setEntry, h', if_false, List.map_cons, List.mem_cons] at h ⊢
        rcases h with h | h
        · exact Or.inr (Or.inl h)
        · rcases ih h with h | h
          · exact Or.inl h
          · exact Or.inr (Or.inr h)

theorem keysNodup_setEntry (m : TMap) (l : String) (d : TraceData)
    (hm : keysNodup m) : keysNodup (setEntry m l d) := by
  induction m with
  | nil => simp [setEntry, keysNodup]
  | cons p rest ih =>
      obtain ⟨k, e⟩ := p
      obtain ⟨hk, hrest⟩ := List.nodup_cons.mp hm
      by_cases h : k = l
      · subst h
        simp only [keysNodup, setEntry, if_pos rfl, List.map_cons]
        exact List.nodup_cons.mpr ⟨hk, hrest⟩
      · simp only [keysNodup, setEntry, h, if_false, List.map_cons]
        refine List.nodup_cons.mpr ⟨?_, ih hrest⟩
        intro hmem
        rcases memKeys_setEntry rest l k d hmem with h' | h'
        · exact h h'
        · exact hk h'

theorem memKeys_eraseEntry (m : TMap) (l a : String)
    (h : a ∈ List.map Prod.fst (eraseEntry m l)) :
    a ∈ List.map Prod.fst m := by
  induction m with
  | nil => simp [eraseEntry] at h
  | cons p rest ih =>
      obtain ⟨k, e⟩ := p
      by_cases h' : k = l
      · subst h'
        simp only [eraseEntry, if_true, eq_self_iff_true] at h
        simp [h]
      · simp only [eraseEntry, h', if_false, List.map_cons, List.mem_cons] at h ⊢
        rcases h with h | h
        · exact Or.inl h
        · exact Or.inr (ih h)

theorem keysNodup_eraseEntry (m : TMap) (l : String) (hm : keysNodup m) :
    keysNodup (eraseEntry m l) := by
  induction m with
  | nil => exact hm
  | cons p rest ih =>
      obtain ⟨k, e⟩ := p
      obtain ⟨hk, hrest⟩ := List.nodup_cons.mp hm
      by_cases h : k = l
      · subst h
        simpa only [keysNodup, eraseEntry, if_pos rfl] using hrest
      · simp only [keysNodup, eraseEntry, h, if_false, List.map_cons]
        exact List.nodup_cons.mpr
          ⟨fun hmem => hk (memKeys_eraseEntry rest l k hmem), ih hrest⟩

theorem eraseEntry_setEntry (m : TMap) (l : String) (d : TraceData)
    (h : lookupTD m l = none) : eraseEntry (setEntry m l d) l = m := by
  induction m with
  | nil => simp [setEntry, eraseEntry]
  | cons p rest ih =>
      obtain ⟨k, e⟩ := p
      by_cases h' : k = l
      · simp [lookupTD, h'] at h
      · simp only [lookupTD, h', if_false] at h
        simp [setEntry, eraseEntry, h', ih h]

theorem lookupTD_mem (m : TMap) (l : String) (d : TraceData)
    (h : lookupTD m l = some d) : (l, d) ∈ m := by
  induction m with
  | nil => simp [lookupTD] at h
  | cons p rest ih =>
      obtain ⟨k, e⟩ := p
      by_cases h' : k = l
      · subst h'
        simp only [lookupTD, if_true, eq_self_iff_true, Option.some.injEq] at h
        rw [← h]
        exact List.mem_cons_self _ _
      · simp only [lookupTD, h', if_false] at h
        exact List.mem_cons_of_mem _ (ih h)

theorem mem_lookupTD (m : TMap) (l : String) (d : TraceData)
    (hm : keysNodup m) (h : (l, d) ∈ m) : lookupTD m l = some d := by
  induction m with
  | nil => exact absurd h (List.not_mem_nil _)
  | cons p rest ih =>
      obtain ⟨k, e⟩ := p
      obtain ⟨hk, hrest⟩ := List.nodup_cons.mp hm
      rcases List.mem_cons.mp h with h' | h'
      · injection h' with h1 h2
        subst h1
        subst h2
        simp [lookupTD]
      · have hl : l ∈ List.map Prod.fst rest := by
          have := List.mem_map_of_mem Prod.fst h'
          simpa using this
        have hkl : ¬k = l := fun he => hk (he ▸ hl)
        simp [lookupTD, hkl, ih hrest h']

theorem mem_eraseEntry (m : TMap) (l : String) (p : String × TraceData)
    (hp : p ∈ eraseEntry m l) : p ∈ m := by
  induction m with
  | nil => exact hp
  | cons q rest ih =>
      obtain ⟨k, e⟩ := q
      by_cases h : k = l
      · subst h
        simp only [eraseEntry, if_true, eq_self_iff_true] at hp
        exact List.mem_cons_of_mem _ hp
      · simp only [eraseEntry, h, if_false] at hp
        rcases List.mem_cons.mp hp with h' | h'
        · exact h' ▸ List.mem_cons_self _ _
        · exact List.mem_cons_of_mem _ (ih h')

theorem stackCount_nonneg (stack : List Ctx) (l : String) :
    0 ≤ stackCount stack l :=
  Int.natCast_nonneg _

theorem stackCount_cons (c : Ctx) (stack : List Ctx) (l : String) :
    stackCount (c :: stack) l =
      (if c.label = l then 1 else 0) + stackCount stack l := by
  by_cases h : c.label = l
  · simp only [stackCount, List.filter_cons, h, decide_True, if_true,
      List.length_cons, if_pos rfl]
    omega
  · simp [stackCount, List.filter_cons, h]

theorem traceConstruct_lookup_self (m : TMap) (l : String) (et : Nat) :
    lookupTD (traceConstruct l et m) l = some
      { entryOf m l with
        numThreads := (entryOf m l).numThreads + 1
        startTime :=
          if (entryOf m l).numThreads + 1 = 1 then et
          else (entryOf m l).startTime
        numEnters := (entryOf m l).numEnters + 1 } := by
  simp only [traceConstruct]
  exact lookupTD_setEntry_self ..

theorem traceConstruct_lookup_ne (m : TMap) (l : String) (et : Nat)
    (k : String) (h : k ≠ l) :
    lookupTD (traceConstruct l et m) k = lookupTD m k := by
  simp only [traceConstruct]
  exact lookupTD_setEntry_ne _ _ _ _ h

theorem traceDestruct_eq_erase (m : TMap) (l : String) (et now : Nat)
    (temp : Bool) (d : TraceData) (hd : lookupTD m l = some d)
    (hcond : d.numThreads - 1 = 0 ∧ temp = true) :
    traceDestruct l et now temp m = eraseEntry m l := by
  simp only [traceDestruct, hd]
  rw [if_pos hcond]

theorem traceDestruct_eq_set (m : TMap) (l : String) (et now : Nat)
    (temp : Bool) (d : TraceData) (hd : lookupTD m l = some d)
    (hcond : ¬(d.numThreads - 1 = 0 ∧ temp = true)) :
    traceDestruct l et now temp m = setEntry m l
      { d with
        numThreads := d.numThreads - 1
        totalMs := d.totalMs + (now - et)
        maxMs := max d.maxMs (now - et) } := by
  simp only [traceDestruct, hd]
  rw [if_neg hcond]

/-! ### Status merge lemmas -/

theorem lookupTD_foldl_statusStep (m : TMap) (total : TMap) (l : String)
    (hm : keysNodup m) :
    lookupTD (m.foldl statusStep total) l =
      match lookupTD m l with
      | none => lookupTD total l
      | some v => some (mergeEntry (entryOf total l) v) := by
  induction m generalizing total with
  | nil => rfl
  | cons p rest ih =>
      obtain ⟨k, w⟩ := p
      obtain ⟨hk, hrest⟩ := List.nodup_cons.mp hm
      by_cases h : k = l
      · subst h
        have hr : lookupTD rest k = none := lookupTD_eq_none_of_notMemKeys rest k hk
        rw [List.foldl_cons, ih _ hrest, hr]
        simp [lookupTD, statusStep, lookupTD_setEntry_self]
      · have h1 : lookupTD (statusStep total (k, w)) l = lookupTD total l := by
          simp only [statusStep]
          exact lookupTD_setEntry_ne total k l _ (Ne.symm h)
        rw [List.foldl_cons, ih _ hrest]
        simp only [lookupTD, h, if_false, entryOf, h1]

theorem foldl_mergeOpt_some (ds : List TraceData) (a : TraceData) :
    ds.foldl (fun acc v => some (mergeEntry (acc.getD {}) v)) (some a) =
      some (ds.foldl mergeEntry a) := by
  induction ds generalizing a with
  | nil => rfl
  | cons d ds ih => simp [List.foldl_cons, ih]

theorem entriesFor_cons (m : TMap) (rest : List TMap) (l : String) :
    entriesFor (m :: rest) l =
      match lookupTD m l with
      | none => entriesFor rest l
      | some v => v :: entriesFor rest l := by
  cases hml : lookupTD m l <;> simp [entriesFor, List.filterMap_cons, hml]

theorem status_go (l : String) (ts : List TMap) (total : TMap)
    (h : ∀ m ∈ ts, keysNodup m) :
    lookupTD (ts.foldl (fun t m => m.foldl statusStep t) total) l =
      (entriesFor ts l).foldl (fun acc v => some (mergeEntry (acc.getD {}) v))
        (lookupTD total l) := by
  induction ts generalizing total with
  | nil => rfl
  | cons m rest ih =>
      rw [List.foldl_cons,
        ih _ (fun m' hm' => h m' (List.mem_cons_of_mem _ hm')),
        lookupTD_foldl_statusStep m total l (h m (List.mem_cons_self _ _)),
        entriesFor_cons]
      cases hml : lookupTD m l with
      | none => rfl
      | some v => simp [List.foldl_cons, entryOf]

theorem lookupTD_status (ts : List TMap) (l : String)
    (h : ∀ m ∈ ts, keysNodup m) :
    lookupTD (status ts) l =
      match entriesFor ts l with
      | [] => none
      | v :: vs => some (vs.foldl mergeEntry (mergeEntry {} v)) := by
  have key := status_go l ts [] h
  cases hef : entriesFor ts l with
  | nil =>
      rw [hef] at key
      exact key
  | cons v vs =>
      rw [hef, List.foldl_cons] at key
      rw [foldl_mergeOpt_some] at key
      exact key

theorem entryOf_status (ts : List TMap) (l : String)
    (h : ∀ m ∈ ts, keysNodup m) :
    entryOf (status ts) l = mergeAll (entriesFor ts l) := by
  rw [entryOf, lookupTD_status ts l h]
  cases hef : entriesFor ts l with
  | nil => rfl
  | cons v vs => simp [mergeAll, List.foldl_cons]

theorem foldl_mergeEntry_numThreads (ds : List TraceData) (a : TraceData) :
    (ds.foldl mergeEntry a).numThreads =
      a.numThreads + (ds.map TraceData.numThreads).sum := by
  induction ds generalizing a with
  | nil => simp
  | cons d ds ih => simp [List.foldl_cons, ih, mergeEntry, add_assoc]

theorem foldl_mergeEntry_numEnters (ds : List TraceData) (a : TraceData) :
    (ds.foldl mergeEntry a).numEnters =
      a.numEnters + (ds.map TraceData.numEnters).sum := by
  induction ds generalizing a with
  | nil => simp
  | cons d ds ih => simp [List.foldl_cons, ih, mergeEntry, add_assoc]

theorem foldl_mergeEntry_totalMs (ds : List TraceData) (a : TraceData) :
    (ds.foldl mergeEntry a).totalMs =
      a.totalMs + (ds.map TraceData.totalMs).sum := by
  induction ds generalizing a with
  | nil => simp
  | cons d ds ih => simp [List.foldl_cons, ih, mergeEntry, Nat.add_assoc]

theorem foldl_mergeEntry_maxMs (ds : List TraceData) (a : TraceData) :
    (ds.foldl mergeEntry a).maxMs =
      (ds.map TraceData.maxMs).foldl max a.maxMs := by
  induction ds generalizing a with
  | nil => rfl
  | cons d ds ih => simp [List.foldl_cons, ih, mergeEntry]

theorem entriesFor_map_sum {α : Type} [AddCommMonoid α] (f : TraceData → α)
    (hf : f {} = 0) (ts : List TMap) (l : String) :
    ((entriesFor ts l).map f).sum = (ts.map (fun m => f (entryOf m l))).sum := by
  induction ts with
  | nil => rfl
  | cons m rest ih =>
      rw [entriesFor_cons]
      cases hml : lookupTD m l with
      | none => simp [entryOf, hml, hf, ih]
      | some v => simp [entryOf, hml, ih]

theorem entriesFor_foldl_maxMs (ts : List TMap) (l : String) (acc : Nat) :
    ((entriesFor ts l).map TraceData.maxMs).foldl max acc =
      (ts.map (fun m => (entryOf m l).maxMs)).foldl max acc := by
  induction ts generalizing acc with
  | nil => rfl
  | cons m rest ih =>
      rw [entriesFor_cons]
      cases hml : lookupTD m l with
      | none =>
          simp only [List.map_cons, List.foldl_cons, entryOf, hml,
            Option.getD_none]
          have hz : acc ⊔ ({} : TraceData).maxMs = acc := by
            simp [show ({} : TraceData).maxMs = 0 from rfl]
          rw [hz]
          exact ih acc
      | some v =>
          simp only [List.map_cons, List.foldl_cons, entryOf, hml,
            Option.getD_some]
          exact ih _

theorem mergeAll_numThreads (ds : List TraceData) :
    (mergeAll ds).numThreads = (ds.map TraceData.numThreads).sum := by
  unfold mergeAll
  rw [foldl_mergeEntry_numThreads]
  simp [show ({} : TraceData).numThreads = 0 from rfl]

theorem mergeAll_numEnters (ds : List TraceData) :
    (mergeAll ds).numEnters = (ds.map TraceData.numEnters).sum := by
  unfold mergeAll
  rw [foldl_mergeEntry_numEnters]
  simp [show ({} : TraceData).numEnters = 0 from rfl]

theorem mergeAll_totalMs (ds : List TraceData) :
    (mergeAll ds).totalMs = (ds.map TraceData.totalMs).sum := by
  unfold mergeAll
  rw [foldl_mergeEntry_totalMs]
  simp [show ({} : TraceData).totalMs = 0 from rfl]

theorem mergeAll_maxMs (ds : List TraceData) :
    (mergeAll ds).maxMs = (ds.map TraceData.maxMs).foldl max 0 := by
  unfold mergeAll
  rw [foldl_mergeEntry_maxMs]

theorem posStarts_cons (d : TraceData) (ds : List TraceData) :
    posStarts (d :: ds) =
      if 0 < d.numEnters then d.startTime :: posStarts ds else posStarts ds := by
  by_cases hp : 0 < d.numEnters <;> simp [posStarts, List.filterMap_cons, hp]

theorem foldl_mergeEntry_startTime_pos (ds : List TraceData) (a : TraceData)
    (ha : 0 < a.numEnters) (hds : ∀ d ∈ ds, 0 ≤ d.numEnters) :
    (ds.foldl mergeEntry a).startTime = (posStarts ds).foldl min a.startTime := by
  induction ds generalizing a with
  | nil => rfl
  | cons d ds ih =>
      have hd : 0 ≤ d.numEnters := hds d (List.mem_cons_self _ _)
      have hrest : ∀ d' ∈ ds, 0 ≤ d'.numEnters :=
        fun d' h' => hds d' (List.mem_cons_of_mem _ h')
      have hane : ¬a.numEnters = 0 := by omega
      have hmne : (mergeEntry a d).numEnters = a.numEnters + d.numEnters := rfl
      have ha' : 0 < (mergeEntry a d).numEnters := by rw [hmne]; omega
      have hst : (mergeEntry a d).startTime =
          if 0 < d.numEnters then min a.startTime d.startTime
          else a.startTime := by
        simp [mergeEntry, hane]
      rw [List.foldl_cons, ih _ ha' hrest, posStarts_cons]
      by_cases hp : 0 < d.numEnters
      · rw [if_pos hp] at hst ⊢
        rw [hst, List.foldl_cons]
      · rw [if_neg hp] at hst ⊢
        rw [hst]

theorem foldl_mergeEntry_startTime_zero (ds : List TraceData) (a : TraceData)
    (ha : a.numEnters = 0) (hds : ∀ d ∈ ds, 0 ≤ d.numEnters)
    (hne : posStarts ds ≠ []) :
    (ds.foldl mergeEntry a).startTime = minL (posStarts ds) := by
  induction ds generalizing a with
  | nil => exact absurd rfl hne
  | cons d ds ih =>
      have hd : 0 ≤ d.numEnters := hds d (List.mem_cons_self _ _)
      have hrest : ∀ d' ∈ ds, 0 ≤ d'.numEnters :=
        fun d' h' => hds d' (List.mem_cons_of_mem _ h')
      have hst0 : (mergeEntry a d).startTime = d.startTime := by
        simp [mergeEntry, ha]
      have hmne : (mergeEntry a d).numEnters = d.numEnters := by
        have : (mergeEntry a d).numEnters = a.numEnters + d.numEnters := rfl
        rw [this, ha, zero_add]
      by_cases hp : 0 < d.numEnters
      · rw [List.foldl_cons,
          foldl_mergeEntry_startTime_pos ds _ (by rw [hmne]; exact hp) hrest,
          hst0, posStarts_cons, if_pos hp]
        rfl
      · have hd0 : d.numEnters = 0 := by omega
        have hps : posStarts (d :: ds) = posStarts ds := by
          rw [posStarts_cons, if_neg hp]
        rw [hps] at hne ⊢
        rw [List.foldl_cons, ih _ (by rw [hmne]; exact hd0) hrest hne]

theorem mergeAll_startTime (ds : List TraceData)
    (hds : ∀ d ∈ ds, 0 ≤ d.numEnters) (hne : posStarts ds ≠ []) :
    (mergeAll ds).startTime = minL (posStarts ds) :=
  foldl_mergeEntry_startTime_zero ds {} rfl hds hne

theorem foldl_min_le (xs : List Nat) (a : Nat) :
    xs.foldl min a ≤ a ∧ ∀ x ∈ xs, xs.foldl min a ≤ x := by
  induction xs generalizing a with
  | nil => simp
  | cons x xs ih =>
      refine ⟨le_trans (ih (min a x)).1 (min_le_left _ _), ?_⟩
      intro y hy
      rcases List.mem_cons.mp hy with rfl | hy
      · exact le_trans (ih (min a y)).1 (min_le_right _ _)
      · exact (ih (min a x)).2 y hy

theorem foldl_min_mem (xs : List Nat) (a : Nat) :
    xs.foldl min a = a ∨ xs.foldl min a ∈ xs := by
  induction xs generalizing a with
  | nil => exact Or.inl rfl
  | cons x xs ih =>
      rw [List.foldl_cons]
      rcases ih (min a x) with h | h
      · rcases min_choice a x with h' | h'
        · exact Or.inl (h.trans h')
        · rw [h, h']
          exact Or.inr (List.mem_cons_self _ _)
      · exact Or.inr (List.mem_cons_of_mem _ h)

/-- `minL` really is the minimum of a non-empty list: it is a member and a
lower bound. -/
theorem minL_is_min (xs : List Nat) (hne : xs ≠ []) :
    minL xs ∈ xs ∧ ∀ x ∈ xs, minL xs ≤ x := by
  cases xs with
  | nil => exact absurd rfl hne
  | cons x xs =>
      constructor
      · rcases foldl_min_mem xs x with h | h
        · rw [minL, h]
          exact List.mem_cons_self _ _
        · exact List.mem_cons_of_mem _ h
      · intro y hy
        rcases List.mem_cons.mp hy with rfl | hy
        · exact (foldl_min_le xs y).1
        · exact (foldl_min_le xs x).2 y hy

theorem mem_setEntry (m : TMap) (l : String) (d : TraceData)
    (p : String × TraceData) (hp : p ∈ setEntry m l d) :
    p ∈ m ∨ p = (l, d) := by
  induction m with
  | nil =>
      simp only [setEntry] at hp
      exact Or.inr (List.mem_singleton.mp hp)
  | cons q rest ih =>
      obtain ⟨k, e⟩ := q
      by_cases h : k = l
      · subst h
        simp only [setEntry, if_pos rfl] at hp
        rcases List.mem_cons.mp hp with h' | h'
        · exact Or.inr h'
        · exact Or.inl (List.mem_cons_of_mem _ h')
      · simp only [setEntry, h, if_false] at hp
        rcases List.mem_cons.mp hp with h' | h'
        · exact Or.inl (h' ▸ List.mem_cons_self _ _)
        · rcases ih h' with h'' | h''
          · exact Or.inl (List.mem_cons_of_mem _ h'')
          · exact Or.inr h''

theorem nonneg_foldl_statusStep (m total : TMap)
    (hm : ∀ p ∈ m, 0 ≤ (p : String × TraceData).2.numThreads)
    (ht : ∀ p ∈ total, 0 ≤ (p : String × TraceData).2.numThreads) :
    ∀ p ∈ m.foldl statusStep total, 0 ≤ (p : String × TraceData).2.numThreads := by
  induction m generalizing total with
  | nil => exact ht
  | cons q rest ih =>
      rw [List.foldl_cons]
      refine ih _ (fun p hp => hm p (List.mem_cons_of_mem _ hp)) ?_
      intro p hp
      rcases mem_setEntry _ _ _ _ hp with hp' | hp'
      · exact ht p hp'
      · have h1 : 0 ≤ (entryOf total q.1).numThreads := by
          unfold entryOf
          cases hq : lookupTD total q.1 with
          | none => exact le_refl 0
          | some e => exact ht _ (lookupTD_mem _ _ _ hq)
        have h2 : 0 ≤ q.2.numThreads := hm q (List.mem_cons_self _ _)
        have h3 : (mergeEntry (entryOf total q.1) q.2).numThreads =
            (entryOf total q.1).numThreads + q.2.numThreads := rfl
        rw [hp']
        show 0 ≤ (mergeEntry (entryOf total q.1) q.2).numThreads
        rw [h3]
        omega

theorem status_numThreads_nonneg (ts : List TMap)
    (h : ∀ m ∈ ts, ∀ p ∈ m, 0 ≤ (p : String × TraceData).2.numThreads) :
    ∀ p ∈ status ts, 0 ≤ (p : String × TraceData).2.numThreads := by
  suffices key : ∀ (total : TMap),
      (∀ p ∈ total, 0 ≤ (p : String × TraceData).2.numThreads) →
      ∀ p ∈ ts.foldl (fun t m => m.foldl statusStep t) total,
        0 ≤ (p : String × TraceData).2.numThreads by
    exact key [] (by intro p hp; exact absurd hp (List.not_mem_nil p))
  induction ts with
  | nil => exact fun total ht => ht
  | cons m rest ih =>
      intro total ht
      rw [List.foldl_cons]
      exact ih (fun m' hm' p hp => h m' (List.mem_cons_of_mem _ hm') p hp) _
        (nonneg_foldl_statusStep m total
          (h m (List.mem_cons_self _ _)) ht)

theorem string_foldl_append (L : List String) (a : String) :
    L.foldl (· ++ ·) a = a ++ String.join L := by
  induction L generalizing a with
  | nil => exact (String.append_empty a).symm
  | cons s L ih =>
      rw [List.foldl_cons, ih]
      have hj : String.join (s :: L) = s ++ String.join L := by
        show (s :: L).foldl (· ++ ·) "" = s ++ String.join L
        rw [List.foldl_cons, ih, String.empty_append]
      rw [hj, String.append_assoc]

theorem foldl_report (f : String × TraceData → String)
    (g : String → String × TraceData → String)
    (hg : ∀ o p, g o p = if p.2.numThreads ≠ 0 then o ++ f p else o)
    (L : List (String × TraceData)) (out : String)
    (hL : ∀ p ∈ L, 0 ≤ (p : String × TraceData).2.numThreads) :
    L.foldl g out =
      out ++ String.join
        ((L.filter (fun p => decide (0 < p.2.numThreads))).map f) := by
  induction L generalizing out with
  | nil => exact (String.append_empty out).symm
  | cons p L ih =>
      have hp0 : 0 ≤ p.2.numThreads := hL p (List.mem_cons_self _ _)
      have hrest : ∀ q ∈ L, 0 ≤ (q : String × TraceData).2.numThreads :=
        fun q hq => hL q (List.mem_cons_of_mem _ hq)
      have hj : ∀ (s : String) (M : List String),
          String.join (s :: M) = s ++ String.join M := by
        intro s M
        show (s :: M).foldl (· ++ ·) "" = s ++ String.join M
        rw [List.foldl_cons, string_foldl_append, String.empty_append]
      rw [List.foldl_cons, hg, List.filter_cons]
      by_cases hp : p.2.numThreads ≠ 0
      · have hlt : 0 < p.2.numThreads := by omega
        rw [if_pos hp, ih _ hrest]
        simp only [hlt, decide_True, if_true, List.map_cons, hj,
          String.append_assoc]
      · have hz : ¬(0 < p.2.numThreads) := by omega
        rw [if_neg hp, ih _ hrest]
        simp [hz]

/-! ### Claim theorems: constructor and destructor -/

/-- C1: constructing a `TraceContext(label, isTemporary)` fetches or creates
the entry for `label` in the calling thread's private map, increments its
`numThreads`, sets `startTime` to the recorded `enterTime` exactly when
`numThreads` transitions from 0 to 1, increments `numEnters`
unconditionally, and changes no other field of that entry (entries of other
labels are untouched as well). -/
theorem construct_updates_entry (m : TMap) (l : String) (et : Nat) :
    ∃ d', lookupTD (traceConstruct l et m) l = some d' ∧
      d'.numThreads = (entryOf m l).numThreads + 1 ∧
      d'.numEnters = (entryOf m l).numEnters + 1 ∧
      d'.startTime =
        (if (entryOf m l).numThreads = 0 then et else (entryOf m l).startTime) ∧
      d'.totalMs = (entryOf m l).totalMs ∧
      d'.maxMs = (entryOf m l).maxMs ∧
      (∀ k, k ≠ l → lookupTD (traceConstruct l et m) k = lookupTD m k) := by
  simp only [traceConstruct]
  refine ⟨_, lookupTD_setEntry_self .., rfl, rfl, ?_, rfl, rfl,
    fun k hk => lookupTD_setEntry_ne _ _ _ _ hk⟩
  have hiff : (entryOf m l).numThreads + 1 = 1 ↔ (entryOf m l).numThreads = 0 := by
    omega
  by_cases h0 : (entryOf m l).numThreads = 0
  · simp [h0, hiff.mpr h0]
  · simp [h0, fun hc => h0 (hiff.mp hc)]

/-- C2: destructing a `TraceContext` decrements `numThreads` for its label
in the calling thread's map; when the decrement reaches 0 and the context
was temporary, the entry is erased and nothing else happens (in particular
`totalMs` and `maxMs` are not updated — the entry is gone and all other
entries are untouched); otherwise `elapsed = now − enterTime` is added to
`totalMs` and `maxMs` becomes `max maxMs elapsed`, with `startTime` and
`numEnters` unchanged. -/
theorem destruct_updates_entry (m : TMap) (l : String) (et now : Nat)
    (temp : Bool) (d : TraceData) (hm : keysNodup m)
    (hd : lookupTD m l = some d) :
    ((d.numThreads - 1 = 0 ∧ temp = true) →
       lookupTD (traceDestruct l et now temp m) l = none ∧
       ∀ k, k ≠ l → lookupTD (traceDestruct l et now temp m) k = lookupTD m k) ∧
    (¬(d.numThreads - 1 = 0 ∧ temp = true) →
       ∃ d', lookupTD (traceDestruct l et now temp m) l = some d' ∧
         d'.numThreads = d.numThreads - 1 ∧
         d'.totalMs = d.totalMs + (now - et) ∧
         d'.maxMs = max d.maxMs (now - et) ∧
         d'.startTime = d.startTime ∧
         d'.numEnters = d.numEnters ∧
         (∀ k, k ≠ l →
           lookupTD (traceDestruct l et now temp m) k = lookupTD m k)) := by
  simp only [traceDestruct, hd]
  by_cases hcond : d.numThreads - 1 = 0 ∧ temp = true
  · rw [if_pos hcond]
    exact ⟨fun _ => ⟨lookupTD_eraseEntry_self m l hm,
        fun k hk => lookupTD_eraseEntry_ne m l k hk⟩,
      fun hn => absurd hcond hn⟩
  · rw [if_neg hcond]
    exact ⟨fun h => absurd h hcond,
      fun _ => ⟨_, lookupTD_setEntry_self .., rfl, rfl, rfl, rfl, rfl,
        fun k hk => lookupTD_setEntry_ne _ _ _ _ hk⟩⟩

/-- C6: on one thread, constructing a `TraceContext` with `isTemporary=true`
and destructing it, with no other active activation of the same label,
leaves the thread's map with no entry for that label at all (not an entry
with zero values); other labels are untouched, and if the label was not
previously present the map is restored exactly. -/
theorem temporary_roundtrip (m : TMap) (l : String) (et now : Nat)
    (hm : keysNodup m)
    (h : lookupTD m l = none ∨ ∃ d, lookupTD m l = some d ∧ d.numThreads = 0) :
    lookupTD (traceDestruct l et now true (traceConstruct l et m)) l = none ∧
    (∀ k, k ≠ l →
      lookupTD (traceDestruct l et now true (traceConstruct l et m)) k =
        lookupTD m k) ∧
    (lookupTD m l = none →
      traceDestruct l et now true (traceConstruct l et m) = m) := by
  have hnt0 : (entryOf m l).numThreads = 0 := by
    rcases h with h | ⟨d, hd, h0⟩
    · simp [entryOf, h]
    · simp [entryOf, hd, h0]
  have hc : traceConstruct l et m =
      setEntry m l
        { entryOf m l with
          numThreads := 1, startTime := et
          numEnters := (entryOf m l).numEnters + 1 } := by
    simp [traceConstruct, hnt0]
  rw [hc]
  have hdes : traceDestruct l et now true
      (setEntry m l
        { entryOf m l with
          numThreads := 1, startTime := et
          numEnters := (entryOf m l).numEnters + 1 }) =
      eraseEntry (setEntry m l
        { entryOf m l with
          numThreads := 1, startTime := et
          numEnters := (entryOf m l).numEnters + 1 }) l := by
    simp [traceDestruct, lookupTD_setEntry_self]
  rw [hdes]
  refine ⟨lookupTD_eraseEntry_self _ l (keysNodup_setEntry m l _ hm), ?_, ?_⟩
  · intro k hk
    rw [lookupTD_eraseEntry_ne _ _ _ hk, lookupTD_setEntry_ne _ _ _ _ hk]
  · intro hnone
    exact eraseEntry_setEntry m l _ hnone

/-- C10: whether a label's entry is erased at the 1 → 0 decrement is decided
solely by the `isTemporary` flag of the destructing context: starting from
an entry with accumulated history (`numThreads = 0`, arbitrary `numEnters`,
`totalMs`, `maxMs`), a temporary activation erases the whole entry on
destruction, discarding that history, while the same activation without the
flag keeps the entry and accumulates into it. -/
theorem temporary_erases_history (m : TMap) (l : String) (et now : Nat)
    (d : TraceData) (hm : keysNodup m) (hd : lookupTD m l = some d)
    (hnt : d.numThreads = 0) :
    lookupTD (traceDestruct l et now true (traceConstruct l et m)) l = none ∧
    ∃ d', lookupTD (traceDestruct l et now false (traceConstruct l et m)) l =
        some d' ∧
      d'.numThreads = 0 ∧ d'.numEnters = d.numEnters + 1 ∧
      d'.startTime = et ∧ d'.totalMs = d.totalMs + (now - et) ∧
      d'.maxMs = max d.maxMs (now - et) := by
  have hc : traceConstruct l et m =
      setEntry m l
        { d with numThreads := 1, startTime := et
                 numEnters := d.numEnters + 1 } := by
    simp [traceConstruct, entryOf, hd, hnt]
  constructor
  · rw [hc]
    have hdes : traceDestruct l et now true
        (setEntry m l
          { d with numThreads := 1, startTime := et
                   numEnters := d.numEnters + 1 }) =
        eraseEntry (setEntry m l
          { d with numThreads := 1, startTime := et
                   numEnters := d.numEnters + 1 }) l := by
      simp [traceDestruct, lookupTD_setEntry_self]
    rw [hdes]
    exact lookupTD_eraseEntry_self _ l (keysNodup_setEntry m l _ hm)
  · rw [hc]
    have hdes : traceDestruct l et now false
        (setEntry m l
          { d with numThreads := 1, startTime := et
                   numEnters := d.numEnters + 1 }) =
        setEntry (setEntry m l
          { d with numThreads := 1, startTime := et
                   numEnters := d.numEnters + 1 }) l
          { d with numThreads := 0, startTime := et
                   numEnters := d.numEnters + 1
                   totalMs := d.totalMs + (now - et)
                   maxMs := max d.maxMs (now - et) } := by
      simp [traceDestruct, lookupTD_setEntry_self]
    rw [hdes]
    exact ⟨_, lookupTD_setEntry_self .., rfl, rfl, rfl, rfl, rfl⟩

/-! ### Event-system invariant lemmas -/

theorem entryOf_le (m : TMap)
    (hle : ∀ p ∈ m, (p : String × TraceData).2.numThreads ≤ p.2.numEnters)
    (l : String) : (entryOf m l).numThreads ≤ (entryOf m l).numEnters := by
  rw [entryOf]
  cases hq : lookupTD m l with
  | none => exact le_refl 0
  | some e => exact hle _ (lookupTD_mem _ _ _ hq)

theorem invHolds_init : invHolds initState := by
  refine ⟨List.nodup_nil, fun l => rfl, ?_⟩
  intro p hp
  exact absurd hp (List.not_mem_nil p)

theorem invHolds_enter (s : ThreadState) (l : String) (temp : Bool) (t : Nat)
    (h : invHolds s) : invHolds (step s (.enter l temp t)) := by
  obtain ⟨hnd, hcnt, hle⟩ := h
  have hstep : step s (.enter l temp t) =
      ⟨⟨l, t, temp⟩ :: s.stack, traceConstruct l t s.counts⟩ := rfl
  rw [hstep]
  refine ⟨?_, ?_, ?_⟩
  · show keysNodup (traceConstruct l t s.counts)
    simp only [traceConstruct]
    exact keysNodup_setEntry _ _ _ hnd
  · intro l'
    show (entryOf (traceConstruct l t s.counts) l').numThreads =
      stackCount (⟨l, t, temp⟩ :: s.stack) l'
    rw [stackCount_cons]
    by_cases h' : l = l'
    · subst h'
      rw [entryOf, traceConstruct_lookup_self, Option.getD_some]
      show (entryOf s.counts l).numThreads + 1 =
        (if l = l then 1 else 0) + stackCount s.stack l
      rw [if_pos rfl, hcnt l]
      omega
    · rw [entryOf, traceConstruct_lookup_ne _ _ _ _ (Ne.symm h'), ← entryOf,
        hcnt l']
      show stackCount s.stack l' = (if l = l' then 1 else 0) + stackCount s.stack l'
      rw [if_neg h']
      omega
  · intro p hp
    have hp' := mem_setEntry _ _ _ p (by simpa [traceConstruct] using hp)
    rcases hp' with hp' | hp'
    · exact hle p hp'
    · have hold := entryOf_le s.counts hle l
      rw [hp']
      show (entryOf s.counts l).numThreads + 1 ≤ (entryOf s.counts l).numEnters + 1
      omega

theorem invHolds_exit (s : ThreadState) (t : Nat) (h : invHolds s) :
    invHolds (step s (.exit t)) := by
  obtain ⟨hnd, hcnt, hle⟩ := h
  cases hs : s.stack with
  | nil =>
      have hstep : step s (.exit t) = s := by
        simp only [step, hs]
      rw [hstep]
      exact ⟨hnd, hcnt, hle⟩
  | cons c rest =>
      have hstep : step s (.exit t) =
          ⟨rest, traceDestruct c.label c.enterTime t c.isTemporary s.counts⟩ := by
        simp only [step, hs]
      have hpos : 0 < (entryOf s.counts c.label).numThreads := by
        rw [hcnt c.label, hs, stackCount_cons, if_pos rfl]
        have := stackCount_nonneg rest c.label
        omega
      obtain ⟨d, hd⟩ : ∃ d, lookupTD s.counts c.label = some d := by
        cases hq : lookupTD s.counts c.label with
        | none =>
            rw [entryOf, hq] at hpos
            simp at hpos
        | some d => exact ⟨d, rfl⟩
      have hdnt : d.numThreads = 1 + stackCount rest c.label := by
        have hc := hcnt c.label
        rw [entryOf, hd, Option.getD_some] at hc
        rw [hc, hs, stackCount_cons, if_pos rfl]
      have hdle : d.numThreads ≤ d.numEnters :=
        hle _ (lookupTD_mem _ _ _ hd)
      rw [hstep]
      by_cases hcond : d.numThreads - 1 = 0 ∧ c.isTemporary = true
      · have hX : traceDestruct c.label c.enterTime t c.isTemporary s.counts =
            eraseEntry s.counts c.label :=
          traceDestruct_eq_erase _ _ _ _ _ _ hd hcond
        refine ⟨?_, ?_, ?_⟩
        · show keysNodup (traceDestruct c.label c.enterTime t c.isTemporary s.counts)
          rw [hX]
          exact keysNodup_eraseEntry _ _ hnd
        · intro l'
          show (entryOf (traceDestruct c.label c.enterTime t c.isTemporary s.counts) l').numThreads =
            stackCount rest l'
          rw [hX]
          by_cases h' : c.label = l'
          · subst h'
            rw [entryOf, lookupTD_eraseEntry_self _ _ hnd, Option.getD_none]
            show (0 : Int) = stackCount rest c.label
            omega
          · rw [entryOf, lookupTD_eraseEntry_ne _ _ _ (Ne.symm h'), ← entryOf,
              hcnt l', hs, stackCount_cons, if_neg h']
            omega
        · intro p hp
          show p.2.numThreads ≤ p.2.numEnters
          rw [hX] at hp
          exact hle p (mem_eraseEntry _ _ _ hp)
      · have hX : traceDestruct c.label c.enterTime t c.isTemporary s.counts =
            setEntry s.counts c.label
              { d with
                numThreads := d.numThreads - 1
                totalMs := d.totalMs + (t - c.enterTime)
                maxMs := max d.maxMs (t - c.enterTime) } :=
          traceDestruct_eq_set _ _ _ _ _ _ hd hcond
        refine ⟨?_, ?_, ?_⟩
        · show keysNodup (traceDestruct c.label c.enterTime t c.isTemporary s.counts)
          rw [hX]
          exact keysNodup_setEntry _ _ _ hnd
        · intro l'
          show (entryOf (traceDestruct c.label c.enterTime t c.isTemporary s.counts) l').numThreads =
            stackCount rest l'
          rw [hX]
          by_cases h' : c.label = l'
          · subst h'
            rw [entryOf, lookupTD_setEntry_self, Option.getD_some]
            show d.numThreads - 1 = stackCount rest c.label
            omega
          · rw [entryOf, lookupTD_setEntry_ne _ _ _ _ (Ne.symm h'), ← entryOf,
              hcnt l', hs, stackCount_cons, if_neg h']
            omega
        · intro p hp
          show p.2.numThreads ≤ p.2.numEnters
          rw [hX] at hp
          rcases mem_setEntry _ _ _ p hp with hp' | hp'
          · exact hle p hp'
          · rw [hp']
            show d.numThreads - 1 ≤ d.numEnters
            omega

theorem invHolds_step (s : ThreadState) (e : Event) (h : invHolds s) :
    invHolds (step s e) := by
  cases e with
  | enter l temp t => exact invHolds_enter s l temp t h
  | exit t => exact invHolds_exit s t h

theorem invHolds_run (evs : List Event) : invHolds (run evs) := by
  have key : ∀ (s : ThreadState), invHolds s → invHolds (evs.foldl step s) := by
    induction evs with
    | nil => exact fun s h => h
    | cons e evs ih =>
        intro s h
        rw [List.foldl_cons]
        exact ih _ (invHolds_step s e h)
  exact key initState invHolds_init

theorem invHolds_entry_nonneg (s : ThreadState) (h : invHolds s) :
    ∀ p ∈ s.counts, 0 ≤ (p : String × TraceData).2.numThreads := by
  intro p hp
  obtain ⟨hnd, hcnt, -⟩ := h
  have hlk : lookupTD s.counts p.1 = some p.2 := mem_lookupTD _ _ _ hnd hp
  have := hcnt p.1
  rw [entryOf, hlk, Option.getD_some] at this
  rw [this]
  exact stackCount_nonneg _ _

theorem step_monotone (s : ThreadState) (e : Event)
    (hnd : keysNodup s.counts) (l : String) (d d' : TraceData)
    (hd : lookupTD s.counts l = some d)
    (hd' : lookupTD (step s e).counts l = some d') :
    d.totalMs ≤ d'.totalMs ∧ d.maxMs ≤ d'.maxMs := by
  cases e with
  | enter l0 temp t =>
      have hc : (step s (.enter l0 temp t)).counts =
          traceConstruct l0 t s.counts := rfl
      rw [hc] at hd'
      by_cases h' : l = l0
      · subst h'
        have hEq : entryOf s.counts l = d := by
          rw [entryOf, hd, Option.getD_some]
        rw [traceConstruct_lookup_self, Option.some.injEq] at hd'
        rw [← hd']
        show d.totalMs ≤ (entryOf s.counts l).totalMs ∧
          d.maxMs ≤ (entryOf s.counts l).maxMs
        rw [hEq]
        exact ⟨le_refl _, le_refl _⟩
      · rw [traceConstruct_lookup_ne _ _ _ _ h', hd, Option.some.injEq] at hd'
        rw [← hd']
        exact ⟨le_refl _, le_refl _⟩
  | exit t =>
      cases hs : s.stack with
      | nil =>
          have hc : (step s (.exit t)).counts = s.counts := by
            simp only [step, hs]
          rw [hc, hd, Option.some.injEq] at hd'
          rw [← hd']
          exact ⟨le_refl _, le_refl _⟩
      | cons c rest =>
          have hc : (step s (.exit t)).counts =
              traceDestruct c.label c.enterTime t c.isTemporary s.counts := by
            simp only [step, hs]
          rw [hc] at hd'
          cases hq : lookupTD s.counts c.label with
          | none =>
              have hid : traceDestruct c.label c.enterTime t c.isTemporary
                  s.counts = s.counts := by
                simp only [traceDestruct, hq]
              rw [hid, hd, Option.some.injEq] at hd'
              rw [← hd']
              exact ⟨le_refl _, le_refl _⟩
          | some d0 =>
              by_cases hcond : d0.numThreads - 1 = 0 ∧ c.isTemporary = true
              · rw [traceDestruct_eq_erase _ _ _ _ _ _ hq hcond] at hd'
                by_cases h' : l = c.label
                · subst h'
                  rw [lookupTD_eraseEntry_self _ _ hnd] at hd'
                  exact absurd hd' (by simp)
                · rw [lookupTD_eraseEntry_ne _ _ _ h', hd,
                    Option.some.injEq] at hd'
                  rw [← hd']
                  exact ⟨le_refl _, le_refl _⟩
              · rw [traceDestruct_eq_set _ _ _ _ _ _ hq hcond] at hd'
                by_cases h' : l = c.label
                · subst h'
                  have hdd : d = d0 := by
                    rw [hd] at hq
                    injection hq
                  rw [lookupTD_setEntry_self, Option.some.injEq] at hd'
                  rw [← hd']
                  subst hdd
                  exact ⟨Nat.le_add_right _ _, le_max_left _ _⟩
                · rw [lookupTD_setEntry_ne _ _ _ _ h', hd,
                    Option.some.injEq] at hd'
                  rw [← hd']
                  exact ⟨le_refl _, le_refl _⟩

/-! ### Claim theorems: aggregator -/

/-- C3: for every label, the entry returned by `status()` has `numThreads`,
`numEnters` and `totalMs` equal to the sum of those fields over all live
per-thread maps (a map not containing the label contributes its default 0),
and `maxMs` equal to the maximum of the per-thread `maxMs` values; with two
threads holding enter counts `eA`, `eB` for a label this gives exactly
`eA + eB`. -/
theorem status_aggregates (ts : List TMap) (l : String)
    (h : ∀ m ∈ ts, keysNodup m) :
    (entryOf (status ts) l).numThreads =
      (ts.map (fun m => (entryOf m l).numThreads)).sum ∧
    (entryOf (status ts) l).numEnters =
      (ts.map (fun m => (entryOf m l).numEnters)).sum ∧
    (entryOf (status ts) l).totalMs =
      (ts.map (fun m => (entryOf m l).totalMs)).sum ∧
    (entryOf (status ts) l).maxMs =
      (ts.map (fun m => (entryOf m l).maxMs)).foldl max 0 := by
  rw [entryOf_status ts l h]
  refine ⟨?_, ?_, ?_, ?_⟩
  · rw [mergeAll_numThreads, entriesFor_map_sum TraceData.numThreads rfl]
  · rw [mergeAll_numEnters, entriesFor_map_sum TraceData.numEnters rfl]
  · rw [mergeAll_totalMs, entriesFor_map_sum TraceData.totalMs rfl]
  · rw [mergeAll_maxMs, entriesFor_foldl_maxMs]

/-- C4: for a label present with `numEnters > 0` in at least one live
per-thread map, the aggregated `startTime` is the minimum `startTime` over
exactly the per-thread entries whose `numEnters` is positive
(`posStarts` keeps only those) — an entry with `numEnters = 0` never seeds
the minimum. -/
theorem status_startTime_min (ts : List TMap) (l : String)
    (h1 : ∀ m ∈ ts, keysNodup m)
    (h2 : ∀ m ∈ ts, ∀ p ∈ m, 0 ≤ (p : String × TraceData).2.numEnters)
    (h3 : ∃ m ∈ ts, ∃ d, lookupTD m l = some d ∧ 0 < d.numEnters) :
    (entryOf (status ts) l).startTime = minL (posStarts (entriesFor ts l)) := by
  rw [entryOf_status ts l h1]
  have hds : ∀ d ∈ entriesFor ts l, 0 ≤ d.numEnters := by
    intro d hd
    obtain ⟨m, hm, hlk⟩ := List.mem_filterMap.mp hd
    exact h2 m hm _ (lookupTD_mem m l d hlk)
  have hne : posStarts (entriesFor ts l) ≠ [] := by
    obtain ⟨m, hm, d, hd, hdp⟩ := h3
    have hmem : d ∈ entriesFor ts l := List.mem_filterMap.mpr ⟨m, hm, hd⟩
    have hin : d.startTime ∈ posStarts (entriesFor ts l) :=
      List.mem_filterMap.mpr ⟨d, hmem, by simp [hdp]⟩
    intro h0
    rw [h0] at hin
    exact List.not_mem_nil _ hin
  exact mergeAll_startTime _ hds hne

/-- C5: whenever an aggregated entry has `numThreads > 0`, it also has
`numEnters ≥ numThreads ≥ 1` (given the per-thread invariants the
constructor/destructor maintain), so the average-duration division
`totalMs / numEnters` in `statusLine()` always has a nonzero divisor. -/
theorem statusLine_divisor_pos (ts : List TMap) (l : String)
    (h1 : ∀ m ∈ ts, keysNodup m) (h2 : ∀ m ∈ ts, wfMap m)
    (hpos : 0 < (entryOf (status ts) l).numThreads) :
    1 ≤ (entryOf (status ts) l).numThreads ∧
    (entryOf (status ts) l).numThreads ≤ (entryOf (status ts) l).numEnters ∧
    0 < (entryOf (status ts) l).numEnters := by
  rw [entryOf_status ts l h1] at hpos ⊢
  have hle : ((entriesFor ts l).map TraceData.numThreads).sum ≤
      ((entriesFor ts l).map TraceData.numEnters).sum := by
    apply List.sum_le_sum
    intro d hd
    obtain ⟨m, hm, hlk⟩ := List.mem_filterMap.mp hd
    exact (h2 m hm _ (lookupTD_mem m l d hlk)).2
  rw [mergeAll_numThreads] at hpos ⊢
  rw [mergeAll_numEnters]
  omega

/-- C8: `statusLine()` renders exactly one line per label of the `status()`
snapshot whose aggregated `numThreads` is positive, in the format
`"<label>=<numThreads> entered <numEnters> avg ms <avg> max ms <maxMs>
continuous for <elapsedMs>"` with `avg = totalMs / numEnters`, and omits
every label whose aggregated `numThreads` is 0 — i.e. it coincides with
the spec-side rendering `statusLineSpec`. -/
theorem statusLine_correct (now : Nat) (ts : List TMap)
    (h : ∀ m ∈ ts, ∀ p ∈ m, 0 ≤ (p : String × TraceData).2.numThreads) :
    statusLine now ts = statusLineSpec now ts := by
  have hs := status_numThreads_nonneg ts h
  unfold statusLine statusLineSpec
  rw [foldl_report
      (fun p =>
        p.1 ++ ("=" ++ (toString p.2.numThreads ++ (" entered "
          ++ (toString p.2.numEnters ++ (" avg ms "
          ++ (toString (p.2.totalMs / p.2.numEnters.toNat) ++ (" max ms "
          ++ (toString p.2.maxMs ++ (" continuous for "
          ++ (toString (now - p.2.startTime) ++ "\n")))))))))))
      _ ?_ _ _ hs, String.empty_append]
  · congr 2
    funext p
    simp [String.append_assoc]
  · intro o p
    by_cases hp : p.2.numThreads ≠ 0
    · rw [if_pos hp, if_pos hp]
      simp [String.append_assoc]
    · rw [if_neg hp, if_neg hp]

/-- C7: along any sequence of constructor/destructor events on a thread
(starting from the empty map), every entry of the per-thread map satisfies
`numThreads ≥ 0` and `numEnters ≥ numThreads`, these invariants are
preserved by any further event, and across any step an entry that persists
never sees `totalMs` or `maxMs` decrease. -/
theorem traceData_invariants (evs : List Event) (e : Event) :
    (∀ p ∈ (run evs).counts,
       0 ≤ (p : String × TraceData).2.numThreads ∧
       (p : String × TraceData).2.numThreads ≤ p.2.numEnters) ∧
    (∀ p ∈ (step (run evs) e).counts,
       0 ≤ (p : String × TraceData).2.numThreads ∧
       (p : String × TraceData).2.numThreads ≤ p.2.numEnters) ∧
    (∀ l d d', lookupTD (run evs).counts l = some d →
       lookupTD (step (run evs) e).counts l = some d' →
       d.totalMs ≤ d'.totalMs ∧ d.maxMs ≤ d'.maxMs) := by
  have h1 := invHolds_run evs
  have h2 := invHolds_step _ e h1
  refine ⟨?_, ?_, ?_⟩
  · intro p hp
    exact ⟨invHolds_entry_nonneg _ h1 p hp, h1.2.2 p hp⟩
  · intro p hp
    exact ⟨invHolds_entry_nonneg _ h2 p hp, h2.2.2 p hp⟩
  · intro l d d' hd hd'
    exact step_monotone _ e h1.1 l d d' hd hd'

/-! ### Witnesses: the claim theorems with hypotheses, applied at concrete
inputs -/

theorem destruct_updates_entry_witness :
    keysNodup [("a", (⟨7, 1, 3, 5, 4⟩ : TraceData))] ∧
    lookupTD [("a", (⟨7, 1, 3, 5, 4⟩ : TraceData))] "a" =
      some ⟨7, 1, 3, 5, 4⟩ ∧
    lookupTD (traceDestruct "a" 2 10 true
      [("a", (⟨7, 1, 3, 5, 4⟩ : TraceData))]) "a" = none :=
  ⟨by decide, by decide,
    ((destruct_updates_entry [("a", (⟨7, 1, 3, 5, 4⟩ : TraceData))] "a" 2 10
      true ⟨7, 1, 3, 5, 4⟩ (by decide) (by decide)).1 (by decide)).1⟩

theorem status_aggregates_witness :
    (entryOf (status [[("L", (⟨5, 1, 2, 30, 20⟩ : TraceData))],
        [("L", (⟨3, 0, 4, 50, 45⟩ : TraceData)),
         ("M", (⟨9, 0, 1, 7, 7⟩ : TraceData))]]) "L").numEnters =
      ([[("L", (⟨5, 1, 2, 30, 20⟩ : TraceData))],
        [("L", (⟨3, 0, 4, 50, 45⟩ : TraceData)),
         ("M", (⟨9, 0, 1, 7, 7⟩ : TraceData))]].map
          (fun m => (entryOf m "L").numEnters)).sum :=
  (status_aggregates [[("L", (⟨5, 1, 2, 30, 20⟩ : TraceData))],
    [("L", (⟨3, 0, 4, 50, 45⟩ : TraceData)),
     ("M", (⟨9, 0, 1, 7, 7⟩ : TraceData))]] "L" (by decide)).2.1

theorem status_startTime_min_witness :
    (entryOf (status [[("L", (⟨5, 1, 2, 30, 20⟩ : TraceData))],
        [("L", (⟨3, 0, 4, 50, 45⟩ : TraceData)),
         ("M", (⟨9, 0, 1, 7, 7⟩ : TraceData))]]) "L").startTime =
      minL (posStarts (entriesFor [[("L", (⟨5, 1, 2, 30, 20⟩ : TraceData))],
        [("L", (⟨3, 0, 4, 50, 45⟩ : TraceData)),
         ("M", (⟨9, 0, 1, 7, 7⟩ : TraceData))]] "L")) :=
  status_startTime_min [[("L", (⟨5, 1, 2, 30, 20⟩ : TraceData))],
    [("L", (⟨3, 0, 4, 50, 45⟩ : TraceData)),
     ("M", (⟨9, 0, 1, 7, 7⟩ : TraceData))]] "L" (by decide) (by decide)
    ⟨[("L", (⟨5, 1, 2, 30, 20⟩ : TraceData))], by decide,
      ⟨5, 1, 2, 30, 20⟩, by decide, by decide⟩

theorem statusLine_divisor_pos_witness :
    0 < (entryOf (status [[("L", (⟨5, 1, 2, 30, 20⟩ : TraceData))],
        [("L", (⟨3, 0, 4, 50, 45⟩ : TraceData)),
         ("M", (⟨9, 0, 1, 7, 7⟩ : TraceData))]]) "L").numThreads ∧
    0 < (entryOf (status [[("L", (⟨5, 1, 2, 30, 20⟩ : TraceData))],
        [("L", (⟨3, 0, 4, 50, 45⟩ : TraceData)),
         ("M", (⟨9, 0, 1, 7, 7⟩ : TraceData))]]) "L").numEnters :=
  ⟨by decide,
    (statusLine_divisor_pos [[("L", (⟨5, 1, 2, 30, 20⟩ : TraceData))],
      [("L", (⟨3, 0, 4, 50, 45⟩ : TraceData)),
       ("M", (⟨9, 0, 1, 7, 7⟩ : TraceData))]] "L" (by decide) (by decide)
      (by decide)).2.2⟩

theorem temporary_roundtrip_witness :
    keysNodup [("a", (⟨7, 1, 3, 5, 4⟩ : TraceData))] ∧
    lookupTD (traceDestruct "q" 3 9 true (traceConstruct "q" 3
      [("a", (⟨7, 1, 3, 5, 4⟩ : TraceData))])) "q" = none :=
  ⟨by decide,
    (temporary_roundtrip [("a", (⟨7, 1, 3, 5, 4⟩ : TraceData))] "q" 3 9
      (by decide) (Or.inl (by decide))).1⟩

theorem statusLine_correct_witness :
    statusLine 100 [[("L", (⟨5, 1, 2, 30, 20⟩ : TraceData))],
        [("L", (⟨3, 0, 4, 50, 45⟩ : TraceData)),
         ("M", (⟨9, 0, 1, 7, 7⟩ : TraceData))]] =
      statusLineSpec 100 [[("L", (⟨5, 1, 2, 30, 20⟩ : TraceData))],
        [("L", (⟨3, 0, 4, 50, 45⟩ : TraceData)),
         ("M", (⟨9, 0, 1, 7, 7⟩ : TraceData))]] :=
  statusLine_correct 100 [[("L", (⟨5, 1, 2, 30, 20⟩ : TraceData))],
    [("L", (⟨3, 0, 4, 50, 45⟩ : TraceData)),
     ("M", (⟨9, 0, 1, 7, 7⟩ : TraceData))]] (by decide)

theorem temporary_erases_history_witness :
    lookupTD [("L", (⟨5, 0, 6, 40, 12⟩ : TraceData))] "L" =
      some ⟨5, 0, 6, 40, 12⟩ ∧
    lookupTD (traceDestruct "L" 50 60 true (traceConstruct "L" 50
      [("L", (⟨5, 0, 6, 40, 12⟩ : TraceData))])) "L" = none :=
  ⟨by decide,
    (temporary_erases_history [("L", (⟨5, 0, 6, 40, 12⟩ : TraceData))] "L"
      50 60 ⟨5, 0, 6, 40, 12⟩ (by decide) (by decide) (by decide)).1⟩

end TraceCtx
